import Mathlib

/-
Shallow embedding of src/src/diagrams.ts (class TensorDiagramCore).

Modelling conventions, stated once here:
* TypeScript erases types at runtime, so the `Pos` union type is a plain
  runtime string; an index position field can also become `undefined`
  (via the record lookup in `opposite` on a non-key), so it is modelled
  as `Option String`.
* A thrown JavaScript exception propagates while `this` keeps every
  mutation already performed, so fallible methods return
  `Except (JsError × TensorDiagramCore) TensorDiagramCore`: the error
  carries the diagram state as of the throw.
* A `Contraction` in the source stores object references into the tensor
  array; tensors are only ever appended and never removed or reordered,
  so a reference is modelled by the stable position of the tensor in the
  list, and `this.tensors[i]` on an out-of-range `i` (which yields
  `undefined` in JavaScript) is modelled as `none`.
* The source file imports its data interfaces from ./interfaces, which
  is not part of the sources; the field lists below follow the object
  literals used in diagrams.ts itself and the data model of the spec.
-/

/-- An index attached to one tensor side.  The position is a runtime
string; `none` models the JavaScript value `undefined`. -/
structure Index where
  name : String
  pos : Option String
  order : Nat
  showLabel : Bool
deriving DecidableEq

/-- A tensor node, with the fields produced by `createTensor`. -/
structure Tensor where
  x : Int
  y : Int
  name : String
  shape : String
  showLabel : Bool
  labPos : String
  size : Nat
  indices : List Index
  rectHeight : Nat
deriving DecidableEq

instance : Inhabited Tensor :=
  ⟨{ x := 0, y := 0, name := "", shape := "", showLabel := true,
     labPos := "up", size := 20, indices := [], rectHeight := 0 }⟩

instance : Inhabited Index :=
  ⟨{ name := "", pos := none, order := 0, showLabel := true }⟩

/-- An edge linking two tensors by a shared index name.  `source` and
`target` are stable positions into the tensor list; `none` models a
reference to `undefined`. -/
structure Contraction where
  source : Option Nat
  target : Option Nat
  name : String
  pos : String
deriving DecidableEq

instance : Inhabited Contraction :=
  ⟨{ source := none, target := none, name := "", pos := "up" }⟩

/-- Modelled from the spec: a Line is an arbitrary auxiliary segment,
opaque to every algorithm; its payload is never inspected. -/
structure Line where
  payload : String
deriving DecidableEq

/-- Grid coordinates. -/
structure XY where
  x : Int
  y : Int
deriving DecidableEq

/-- The options object accepted by `addTensor`; absent keys are `none`. -/
structure TensorOpts where
  shape : Option String := none
  showLabel : Option Bool := none
  labelPos : Option String := none
  size : Option Nat := none
deriving DecidableEq

/-- The aggregate diagram state. -/
structure TensorDiagramCore where
  tensors : List Tensor
  contractions : List Contraction
  lines : List Line
  width : Int
  height : Int
deriving DecidableEq

/-- The position argument of `addTensor`. -/
inductive RelPos where
  | start
  | right
  | down
  | xy (p : XY)
deriving DecidableEq

/-- Failure modes of the builder methods.  The two `throw new Error`
sites of the source get dedicated constructors; `typeError` models a
JavaScript TypeError raised by reading a property of `undefined`. -/
inductive JsError where
  | noMatchingIndex (name : String)
  | invalidIndexPosition (pos : Option String) (name : String)
  | typeError
deriving DecidableEq

deriving instance DecidableEq for Except

/-- `opposite` from the source: a record lookup, so a non-key argument
yields `undefined`, modelled as `none`. -/
def opposite (pos : String) : Option String :=
  match pos with
  | "left" => some "right"
  | "right" => some "left"
  | "up" => some "down"
  | "down" => some "up"
  | _ => none

/-- `TensorDiagramCore.createTensor`. -/
def createTensor (x y : Int) (name : String) (indices : List Index)
    (shape : String) (showLabel : Bool) (labPos : String) (size : Nat) : Tensor :=
  let rectHeight := max
    (indices.filter (fun index => index.pos == some "right")).length
    (indices.filter (fun index => index.pos == some "left")).length
  { x := x, y := y, name := name, shape := shape, showLabel := showLabel,
    labPos := labPos, size := size, indices := indices, rectHeight := rectHeight }

/-- `TensorDiagramCore.new()`. -/
def TensorDiagramCore.new : TensorDiagramCore :=
  { tensors := [], contractions := [], lines := [], width := 300, height := 300 }

/-- The `lastTensor` getter: `this.tensors[this.tensors.length - 1]`,
which is `undefined` on an empty diagram. -/
def lastTensor (d : TensorDiagramCore) : Option Tensor :=
  d.tensors.getLast?

/-- Body of `addTensor` after the position switch has produced a
concrete coordinate. -/
def addTensorAt (d : TensorDiagramCore) (name : String) (pos : XY)
    (left right up down : List String) (opts : TensorOpts) : TensorDiagramCore :=
  let inds1 := left.mapIdx fun i s =>
    ({ name := s, pos := some "left", order := i, showLabel := true } : Index)
  let inds2 := right.mapIdx fun i s =>
    ({ name := s, pos := some "right", order := i, showLabel := true } : Index)
  let inds3 := up.mapIdx fun i s =>
    ({ name := s, pos := some "up", order := i, showLabel := true } : Index)
  let inds4 := down.mapIdx fun i s =>
    ({ name := s, pos := some "down", order := i, showLabel := true } : Index)
  let indices := inds1 ++ inds2 ++ inds3 ++ inds4
  let tensor := createTensor pos.x pos.y name indices
    (opts.shape.getD (if 1 < inds1.length ∨ 1 < inds2.length then "rectangle" else "circle"))
    (opts.showLabel.getD true)
    (opts.labelPos.getD "up")
    (opts.size.getD 20)
  { d with tensors := d.tensors ++ [tensor] }

/-- `addTensor`.  The "right"/"down" cases read `this.lastTensor.x`,
which raises a TypeError when the diagram is empty. -/
def addTensor (d : TensorDiagramCore) (name : String) (position : RelPos)
    (left right up down : List String) (opts : TensorOpts) :
    Except (JsError × TensorDiagramCore) TensorDiagramCore :=
  match position with
  | .start => .ok (addTensorAt d name ⟨0, 0⟩ left right up down opts)
  | .right =>
    match lastTensor d with
    | none => .error (.typeError, d)
    | some t => .ok (addTensorAt d name ⟨t.x + 1, t.y⟩ left right up down opts)
  | .down =>
    match lastTensor d with
    | none => .error (.typeError, d)
    | some t => .ok (addTensorAt d name ⟨t.x, t.y + 1⟩ left right up down opts)
  | .xy p => .ok (addTensorAt d name p left right up down opts)

/-- `this.tensors[i]` as a stored reference: a stable position when in
range, `undefined` (`none`) otherwise. -/
def tensorRef (d : TensorDiagramCore) (i : Int) : Option Nat :=
  if 0 ≤ i ∧ i < (d.tensors.length : Int) then some i.toNat else none

/-- `addContraction`: performs no bounds check and never fails. -/
def addContraction (d : TensorDiagramCore) (i j : Int) (name : String)
    (pos : String) : TensorDiagramCore :=
  { d with contractions := d.contractions ++
      [{ source := tensorRef d i, target := tensorRef d j, name := name, pos := pos }] }

/-- `tensor.indices.some(index => index.name === name)`. -/
def hasIndexNamed (name : String) (t : Tensor) : Bool :=
  t.indices.any fun index => index.name == name

/-- Positions of `relevantTensors` inside `this.tensors`.  The source
filters the tensor array and later recovers each position with
`indexOf`; since the array elements are distinct objects the position
of each filtered reference is its index, so the filter is modelled
directly on positions. -/
def relevantIdxs (d : TensorDiagramCore) (name : String) : List Nat :=
  (List.range d.tensors.length).filter fun i =>
    hasIndexNamed name (d.tensors.getD i default)

/-- `index.name = newName` on the first index matching `name` (the
source finds the index with `find` and mutates it in place). -/
def renameFirst (indices : List Index) (name newName : String) : List Index :=
  match indices with
  | [] => []
  | ind :: rest =>
    if ind.name == name then { ind with name := newName } :: rest
    else ind :: renameFirst rest name newName

/-- A tensor after its first index named `name` is renamed in place. -/
def renameTensor (t : Tensor) (name newName : String) : Tensor :=
  { t with indices := renameFirst t.indices name newName }

/-- The dot tensor after `dotTensor.indices.push(...)` of one new index
with the given name and position; the order counts the already present
dot indices on the same side. -/
def pushDotIndex (dot : Tensor) (newName : String) (oppPos : Option String) : Tensor :=
  { dot with indices := dot.indices ++
      [{ name := newName, pos := oppPos,
         order := (dot.indices.filter (fun ind => ind.pos == oppPos)).length,
         showLabel := false }] }

/-- One iteration of the `relevantTensors.forEach` loop in the final
branch of `addSummation`: `i` is the loop counter, `ti` the position of
the processed tensor, `dotIdx` the position of the dot tensor.  The
tensor reference and the found index are read before the two mutations;
`ti` differs from `dotIdx` in every reachable state, so applying the
rename after the dot push agrees with the source. -/
def sumStep (name : String) (dotIdx i ti : Nat) (s : TensorDiagramCore) :
    Except (JsError × TensorDiagramCore) TensorDiagramCore :=
  let tensor := s.tensors.getD ti default
  match tensor.indices.find? (fun ind => ind.name == name) with
  | none => .error (.typeError, s)
  | some index =>
    let newName := name ++ toString i
    let oppPos := index.pos.bind opposite
    let dotTensor := s.tensors.getD dotIdx default
    let ts1 := s.tensors.set dotIdx (pushDotIndex dotTensor newName oppPos)
    let s1 := { s with tensors := ts1 }
    let ts2 := s1.tensors.set ti (renameTensor tensor name newName)
    let s2 := { s1 with tensors := ts2 }
    .ok (addContraction s2 (ti : Int) ((s2.tensors.length : Int) - 1) newName "up")

/-- The `relevantTensors.forEach` loop itself. -/
def sumLoop (name : String) (dotIdx : Nat) (rel : List Nat) (i : Nat)
    (s : TensorDiagramCore) : Except (JsError × TensorDiagramCore) TensorDiagramCore :=
  match rel with
  | [] => .ok s
  | ti :: rest =>
    match sumStep name dotIdx i ti s with
    | .error e => .error e
    | .ok s1 => sumLoop name dotIdx rest (i + 1) s1

/-- The options object used for every dot tensor. -/
def dotOpts : TensorOpts :=
  { shape := some "dot", showLabel := some false }

/-- `addSummation`.  Dispatches on how many tensors carry an index named
`name`.  With no position supplied in the final branch the source passes
`position!` (that is, `undefined`) to `addTensor`, whose switch falls
through to the default case and `createTensor` then reads `pos.x` of
`undefined`: a TypeError before any mutation. -/
def addSummation (d : TensorDiagramCore) (name : String) (position : Option XY) :
    Except (JsError × TensorDiagramCore) TensorDiagramCore :=
  match relevantIdxs d name with
  | [] => .error (.noMatchingIndex name, d)
  | [ti] =>
    let oneTensor := d.tensors.getD ti default
    match (oneTensor.indices.filter (fun index => index.name == name)).head? with
    | none => .error (.typeError, d)
    | some indOne =>
      if indOne.pos = some "left" then
        let d1 := addTensorAt d "dot"
          ⟨oneTensor.x - 1, oneTensor.y + (indOne.order : Int)⟩ [] [name] [] [] dotOpts
        .ok (addContraction d1 (ti : Int) ((d1.tensors.length : Int) - 1) name "up")
      else if indOne.pos = some "right" then
        let d1 := addTensorAt d "dot"
          ⟨oneTensor.x + 1, oneTensor.y + (indOne.order : Int)⟩ [name] [] [] [] dotOpts
        .ok (addContraction d1 (ti : Int) ((d1.tensors.length : Int) - 1) name "up")
      else if indOne.pos = some "up" then
        let d1 := addTensorAt d "dot"
          ⟨oneTensor.x + (indOne.order : Int), oneTensor.y - 1⟩ [] [] [] [name] dotOpts
        .ok (addContraction d1 (ti : Int) ((d1.tensors.length : Int) - 1) name "up")
      else if indOne.pos = some "down" then
        let d1 := addTensorAt d "dot"
          ⟨oneTensor.x + (indOne.order : Int), oneTensor.y + 1⟩ [] [] [name] [] dotOpts
        .ok (addContraction d1 (ti : Int) ((d1.tensors.length : Int) - 1) name "up")
      else .error (.invalidIndexPosition indOne.pos name, d)
  | [ti, tj] =>
    .ok (addContraction d (ti : Int) (tj : Int) name "up")
  | ti0 :: ti1 :: ti2 :: rest =>
    match position with
    | none => .error (.typeError, d)
    | some p =>
      let d1 := addTensorAt d "dot" p [] [] [] [] dotOpts
      sumLoop name (d1.tensors.length - 1) (ti0 :: ti1 :: ti2 :: rest) 0 d1

/-- `setSize`. -/
def setSize (d : TensorDiagramCore) (width height : Int) : TensorDiagramCore :=
  { d with width := width, height := height }

/-- `toFormulaEinsum`. -/
def toFormulaEinsum (d : TensorDiagramCore) : String :=
  let indiceNames := d.tensors.map fun tensor => tensor.indices.map fun index => index.name
  let tensorNames := d.tensors.map fun tensor => tensor.name
  let indicesAll := indiceNames.flatten
  let indicesContracted := d.contractions.map fun contraction => contraction.name
  let indicesFree := indicesAll.foldl
    (fun acc name =>
      if !(indicesContracted.contains name) && !(acc.contains name)
      then acc ++ [name] else acc) []
  let indicesPerTensorStr := String.intercalate "," (indiceNames.map fun ids => String.join ids)
  let indicesFreeStr := String.join indicesFree
  let tensorNamesStr := String.intercalate ", " tensorNames
  "einsum('" ++ indicesPerTensorStr ++ "->" ++ indicesFreeStr ++ "', " ++ tensorNamesStr ++ ")"

/-- `looseIndices`. -/
def looseIndices (d : TensorDiagramCore) : List (List Index) :=
  let contractedIndicesNames := d.contractions.map fun contraction => contraction.name
  d.tensors.map fun tensor =>
    tensor.indices.filter fun index => !(contractedIndicesNames.contains index.name)

/-- The side opposite to the index named `name` on tensor `t`:
position of the index found first, pushed through `opposite`. -/
def oppOf (t : Tensor) (name : String) : Option String :=
  match t.indices.find? (fun ind => ind.name == name) with
  | some ind => ind.pos.bind opposite
  | none => none

/-- The base dot tensor created by the final branch of `addSummation`
before the loop pushes any index onto it. -/
def dotBase (p : XY) : Tensor :=
  { x := p.x, y := p.y, name := "dot", shape := "dot", showLabel := false,
    labPos := "up", size := 20, indices := [], rectHeight := 0 }

/-- The sequence of indices the loop pushes onto a dot tensor whose
indices start as `base`: the k-th has name `name ++ toString (i + k)`,
the k-th listed position, hidden label, and order counting the dot
indices already present on the same side. -/
def dotPushed (name : String) (base : List Index) (i : Nat) :
    List (Option String) → List Index
  | [] => []
  | p :: ps =>
    let ord := (base.filter (fun ind => ind.pos == p)).length
    let newIx : Index := { name := name ++ toString i, pos := p, order := ord, showLabel := false }
    newIx :: dotPushed name (base ++ [newIx]) (i + 1) ps

/-- The contractions the loop records: the k-th links the k-th relevant
tensor to the dot under the disambiguated name. -/
def newContrs (name : String) (dotIdx : Nat) (i : Nat) : List Nat → List Contraction
  | [] => []
  | ti :: rest =>
    { source := some ti, target := some dotIdx, name := name ++ toString i, pos := "up" }
      :: newContrs name dotIdx (i + 1) rest

/-- The tensor list after each listed position has its first index named
`name` renamed to the disambiguated name, in loop order. -/
def renameAll (ts : List Tensor) (name : String) (i : Nat) : List Nat → List Tensor
  | [] => ts
  | ti :: rest =>
    renameAll (ts.set ti (renameTensor (ts.getD ti default) name (name ++ toString i)))
      name (i + 1) rest

/-- Written from the claim text: the free names are those index names,
in first-encounter order, that are not contracted and not already
emitted as free. -/
def freeNamesSpec (contracted : List String) : List String → List String
  | [] => []
  | nm :: rest =>
    if nm ∈ contracted then freeNamesSpec contracted rest
    else nm :: freeNamesSpec contracted (rest.filter fun x => x != nm)
termination_by l => l.length
decreasing_by
  all_goals simp only [List.length_cons]
  · omega
  · exact Nat.lt_succ_of_le (List.length_filter_le _ _)

/-- Written from the claim text: the einsum string assembled from the
per-tensor index names, the free names and the tensor names. -/
def einsumSpec (d : TensorDiagramCore) : String :=
  "einsum('"
    ++ String.intercalate ","
        (d.tensors.map fun t => String.join (t.indices.map fun ix => ix.name))
    ++ "->"
    ++ String.join (freeNamesSpec (d.contractions.map fun c => c.name)
        ((d.tensors.map fun t => t.indices.map fun ix => ix.name).flatten))
    ++ "', "
    ++ String.intercalate ", " (d.tensors.map fun t => t.name)
    ++ ")"

/-- All index names present on the tensors of the diagram. -/
def allIndexNames (d : TensorDiagramCore) : List String :=
  (d.tensors.map fun t => t.indices.map fun ix => ix.name).flatten

/-- Names of the contraction records. -/
def contractedNames (d : TensorDiagramCore) : List String :=
  d.contractions.map fun c => c.name

/-- Names of the loose indices, flattened. -/
def looseNames (d : TensorDiagramCore) : List String :=
  (looseIndices d).flatten.map fun ix => ix.name

/-- Shorthand for building a visible index on a concrete side. -/
def mkIx (nm p : String) (k : Nat) : Index :=
  { name := nm, pos := some p, order := k, showLabel := true }

/-- Shorthand for a concrete circle tensor. -/
def mkT (nm : String) (xx yy : Int) (inds : List Index) : Tensor :=
  { x := xx, y := yy, name := nm, shape := "circle", showLabel := true,
    labPos := "up", size := 20, indices := inds, rectHeight := 0 }

/-- Shorthand for a concrete diagram. -/
def mkD (ts : List Tensor) (cs : List Contraction) : TensorDiagramCore :=
  { tensors := ts, contractions := cs, lines := [], width := 300, height := 300 }

/-- One tensor A with an up index i, as in the spec example. -/
def exA : TensorDiagramCore := mkD [mkT "A" 0 0 [mkIx "i" "up" 0]] []

/-- One tensor A with a left index i, as in the einsum example. -/
def exALeft : TensorDiagramCore := mkD [mkT "A" 0 0 [mkIx "i" "left" 0]] []

/-- One tensor carrying index i, with a contraction record naming zz,
which no tensor carries. -/
def exBadContr : TensorDiagramCore :=
  mkD [mkT "A" 0 0 [mkIx "i" "up" 0]]
    [{ source := some 0, target := some 0, name := "zz", pos := "up" }]

/-- Two tensors contracted over j, with a loose index i on A. -/
def exGood : TensorDiagramCore :=
  mkD [mkT "A" 0 0 [mkIx "i" "left" 0, mkIx "j" "down" 0], mkT "B" 0 1 [mkIx "j" "up" 0]]
    [{ source := some 0, target := some 1, name := "j", pos := "up" }]

/-- Three tensors sharing the index k. -/
def ex3 : TensorDiagramCore :=
  mkD [mkT "A" 0 0 [mkIx "k" "down" 0], mkT "B" 1 0 [mkIx "k" "down" 0],
       mkT "C" 2 0 [mkIx "k" "left" 0]] []

/-- The dot tensor created by the single-tensor branch: one visible
index named `name` on side `side`, order 0; `rh` is the rectHeight
computed at creation. -/
def dotOne (xx yy : Int) (name side : String) (rh : Nat) : Tensor :=
  { x := xx, y := yy, name := "dot", shape := "dot", showLabel := false, labPos := "up",
    size := 20, indices := [{ name := name, pos := some side, order := 0, showLabel := true }],
    rectHeight := rh }

/-- A contraction record between positions `i` and `j` with default
rendering position. -/
def cOne (i j : Nat) (nm : String) : Contraction :=
  { source := some i, target := some j, name := nm, pos := "up" }

/-- A tensor with its indices field replaced. -/
def withIndices (t : Tensor) (inds : List Index) : Tensor :=
  { t with indices := inds }

/-- A hidden-label index record as pushed by the loop. -/
def dotIx (nm : String) (p : Option String) (ord : Nat) : Index :=
  { name := nm, pos := p, order := ord, showLabel := false }

/-- Written from the claim text: a tensor whose indices named `name`
are renamed to `nn`, all other indices kept in place. -/
def renameMap (t : Tensor) (name nn : String) : Tensor :=
  withIndices t (t.indices.map fun jx => if jx.name = name then { jx with name := nn } else jx)

/-- An element read within bounds belongs to the list. -/
theorem getD_mem_of_lt {α : Type} [Inhabited α] {l : List α} {i : Nat}
    (h : i < l.length) : l.getD i default ∈ l := by
  rw [List.getD_eq_getElem?_getD, List.getElem?_eq_getElem h]
  exact List.getElem_mem h

/-- Membership in `relevantIdxs` means: in range and carrying the index. -/
theorem mem_relevantIdxs {d : TensorDiagramCore} {name : String} {i : Nat} :
    i ∈ relevantIdxs d name ↔
      i < d.tensors.length ∧ hasIndexNamed name (d.tensors.getD i default) = true := by
  simp [relevantIdxs, List.mem_filter, List.mem_range]

/-- `relevantIdxs` lists pairwise distinct positions. -/
theorem relevantIdxs_nodup (d : TensorDiagramCore) (name : String) :
    (relevantIdxs d name).Nodup :=
  (List.nodup_range _).filter _

/-- C7: summation over a name carried by no tensor fails with the
no-matching-index error, with the diagram state untouched. -/
theorem claim_C7 (d : TensorDiagramCore) (nm : String) (p : Option XY)
    (h : ∀ t ∈ d.tensors, hasIndexNamed nm t = false) :
    addSummation d nm p = .error (.noMatchingIndex nm, d) := by
  have hrel : relevantIdxs d nm = [] := by
    simp only [relevantIdxs]
    rw [List.filter_eq_nil_iff]
    intro i hi
    rw [List.mem_range] at hi
    intro hc
    rw [h _ (getD_mem_of_lt hi)] at hc
    exact absurd hc (by decide)
  simp [addSummation, hrel]

/-- Witness for C7 at a concrete diagram. -/
theorem claim_C7_w : addSummation exA "q" none = .error (.noMatchingIndex "q", exA) :=
  claim_C7 exA "q" none (by decide)

/-- C4 (amended): `addContraction` performs no bounds check: it always
succeeds, appending exactly one contraction whose source and target are
the stored references, and an out-of-range argument stores an undefined
(`none`) reference. -/
theorem claim_C4 (d : TensorDiagramCore) (i j : Int) (nm pos : String) :
    (addContraction d i j nm pos).tensors = d.tensors
    ∧ (addContraction d i j nm pos).contractions = d.contractions ++
        [{ source := tensorRef d i, target := tensorRef d j, name := nm, pos := pos }]
    ∧ (¬ (0 ≤ i ∧ i < (d.tensors.length : Int)) → tensorRef d i = none)
    ∧ (¬ (0 ≤ j ∧ j < (d.tensors.length : Int)) → tensorRef d j = none) := by
  refine ⟨rfl, rfl, fun h => by simp [tensorRef, h], fun h => by simp [tensorRef, h]⟩

/-- Witness for C4: out-of-range arguments store undefined references. -/
theorem claim_C4_w : tensorRef exA 5 = none ∧ tensorRef exA 7 = none :=
  ⟨(claim_C4 exA 5 7 "j" "up").2.2.1 (by decide),
   (claim_C4 exA 5 7 "j" "up").2.2.2 (by decide)⟩

/-- Counterexample to C4 as stated: with one tensor, addContraction 5 7
does not fail; it silently records a contraction whose source and
target reference undefined. -/
theorem claim_C4_cex : addContraction exA 5 7 "j" "up"
    = { exA with contractions :=
        [{ source := none, target := none, name := "j", pos := "up" }] } := by
  decide

/-- C6 (amended): with a last tensor at (x, y), addTensor "right"
appends a tensor at (x+1, y) and "down" appends one at (x, y+1); on an
empty diagram both fail, but with a runtime TypeError from reading a
coordinate of the undefined last tensor, not a dedicated error. -/
theorem claim_C6 (d : TensorDiagramCore) (nm : String) (l r u dn : List String)
    (opts : TensorOpts) :
    (∀ t, lastTensor d = some t →
      (∃ tR, addTensor d nm .right l r u dn opts = .ok { d with tensors := d.tensors ++ [tR] }
        ∧ tR.x = t.x + 1 ∧ tR.y = t.y)
      ∧ (∃ tD, addTensor d nm .down l r u dn opts = .ok { d with tensors := d.tensors ++ [tD] }
        ∧ tD.x = t.x ∧ tD.y = t.y + 1))
    ∧ (lastTensor d = none →
      addTensor d nm .right l r u dn opts = .error (.typeError, d)
      ∧ addTensor d nm .down l r u dn opts = .error (.typeError, d)) := by
  constructor
  · intro t ht
    constructor
    · have h1 : addTensor d nm .right l r u dn opts
          = .ok (addTensorAt d nm ⟨t.x + 1, t.y⟩ l r u dn opts) := by
        simp [addTensor, ht]
      exact ⟨_, h1, rfl, rfl⟩
    · have h1 : addTensor d nm .down l r u dn opts
          = .ok (addTensorAt d nm ⟨t.x, t.y + 1⟩ l r u dn opts) := by
        simp [addTensor, ht]
      exact ⟨_, h1, rfl, rfl⟩
  · intro hn
    constructor <;> simp [addTensor, hn]

/-- Witness for C6 at a concrete one-tensor diagram. -/
theorem claim_C6_w :
    (∃ tR, addTensor exA "B" .right [] [] [] [] {} = .ok { exA with tensors := exA.tensors ++ [tR] }
      ∧ tR.x = 0 + 1 ∧ tR.y = 0)
    ∧ (∃ tD, addTensor exA "B" .down [] [] [] [] {} = .ok { exA with tensors := exA.tensors ++ [tD] }
      ∧ tD.x = 0 ∧ tD.y = 0 + 1) :=
  (claim_C6 exA "B" [] [] [] [] {}).1 (mkT "A" 0 0 [mkIx "i" "up" 0]) (by decide)

/-- Counterexample to C6 as stated: on the empty diagram the call fails
with a generic runtime TypeError; no EmptyDiagramError exists in the
code. -/
theorem claim_C6_cex : addTensor TensorDiagramCore.new "A" .right [] [] [] [] {}
    = .error (.typeError, TensorDiagramCore.new) := by
  decide

/-- C5 (amended): with three or more relevant tensors and no explicit
position, addSummation fails before any mutation, but with a runtime
TypeError (the undefined position reaches `pos.x` in createTensor), not
a dedicated MissingPositionError. -/
theorem claim_C5 (d : TensorDiagramCore) (nm : String) (rel : List Nat)
    (hrel : relevantIdxs d nm = rel) (h3 : 3 ≤ rel.length) :
    addSummation d nm none = .error (.typeError, d) := by
  rcases rel with _ | ⟨a, _ | ⟨b, _ | ⟨c, r⟩⟩⟩
  · simp at h3
  · simp at h3
  · simp at h3
  · simp [addSummation, hrel]

/-- Witness for C5 at a concrete three-tensor diagram. -/
theorem claim_C5_w : addSummation ex3 "k" none = .error (.typeError, ex3) :=
  claim_C5 ex3 "k" [0, 1, 2] (by decide) (by decide)

/-- Counterexample to C5 as stated: the concrete failure is the generic
TypeError, there being no MissingPositionError in the code. -/
theorem claim_C5_cex :
    addSummation ex3 "k" none = .error (.typeError, ex3) ∧ relevantIdxs ex3 "k" = [0, 1, 2] :=
  ⟨by decide, by decide⟩

/-- `contains` on a list of strings decides membership. -/
theorem contains_eq_decide (l : List String) (a : String) :
    l.contains a = decide (a ∈ l) :=
  List.elem_eq_mem a l

/-- The accumulator fold of `toFormulaEinsum` computes the free names of
the claim text: first-encounter order, skipping contracted names and
names already emitted as free. -/
theorem foldl_freeNames (contracted : List String) (l : List String) :
    ∀ acc : List String,
      l.foldl (fun acc name =>
          if !(contracted.contains name) && !(acc.contains name)
          then acc ++ [name] else acc) acc
        = acc ++ freeNamesSpec contracted (l.filter fun x => !(acc.contains x)) := by
  induction l with
  | nil => intro acc; simp [freeNamesSpec]
  | cons nm rest ih =>
    intro acc
    by_cases hc : nm ∈ contracted <;> by_cases ha : nm ∈ acc
    · have hstep : (if (!(contracted.contains nm) && !(acc.contains nm)) = true
          then acc ++ [nm] else acc) = acc := by
        simp [contains_eq_decide, hc, ha]
      have hfil : List.filter (fun x => !(acc.contains x)) (nm :: rest)
          = List.filter (fun x => !(acc.contains x)) rest := by
        simp [contains_eq_decide, ha]
      simp only [List.foldl_cons]
      rw [hstep, hfil, ih acc]
    · have hstep : (if (!(contracted.contains nm) && !(acc.contains nm)) = true
          then acc ++ [nm] else acc) = acc := by
        simp [contains_eq_decide, hc, ha]
      have hfil : List.filter (fun x => !(acc.contains x)) (nm :: rest)
          = nm :: List.filter (fun x => !(acc.contains x)) rest := by
        simp [contains_eq_decide, ha]
      simp only [List.foldl_cons]
      rw [hstep, hfil, ih acc, freeNamesSpec]
      rw [if_pos hc]
    · have hstep : (if (!(contracted.contains nm) && !(acc.contains nm)) = true
          then acc ++ [nm] else acc) = acc := by
        simp [contains_eq_decide, hc, ha]
      have hfil : List.filter (fun x => !(acc.contains x)) (nm :: rest)
          = List.filter (fun x => !(acc.contains x)) rest := by
        simp [contains_eq_decide, ha]
      simp only [List.foldl_cons]
      rw [hstep, hfil, ih acc]
    · have hstep : (if (!(contracted.contains nm) && !(acc.contains nm)) = true
          then acc ++ [nm] else acc) = acc ++ [nm] := by
        simp [contains_eq_decide, hc, ha]
      have hfil : List.filter (fun x => !(acc.contains x)) (nm :: rest)
          = nm :: List.filter (fun x => !(acc.contains x)) rest := by
        simp [contains_eq_decide, ha]
      have hfilter : (rest.filter fun x => !(acc.contains x)).filter (fun x => x != nm)
          = rest.filter fun x => !((acc ++ [nm]).contains x) := by
        rw [List.filter_filter]
        refine List.filter_congr fun a _ => ?_
        simp only [contains_eq_decide, List.mem_append, List.mem_singleton, bne,
          Bool.beq_eq_decide_eq]
        by_cases g1 : a = nm <;> by_cases g2 : a ∈ acc <;> simp [g1, g2]
      simp only [List.foldl_cons]
      rw [hstep, hfil, ih (acc ++ [nm]), freeNamesSpec]
      rw [if_neg hc, hfilter]
      simp

/-- Filtering with an empty exclusion list keeps everything. -/
theorem filter_not_contains_nil (l : List String) :
    l.filter (fun x => !(List.contains [] x)) = l := by
  simp

/-- C2: toFormulaEinsum produces the einsum string of the claim text,
with the free names in first-encounter order, and the single-tensor
example evaluates to einsum('i->i', A). -/
theorem claim_C2 :
    (∀ d, toFormulaEinsum d = einsumSpec d)
    ∧ toFormulaEinsum exALeft = "einsum('i->i', A)" := by
  constructor
  · intro d
    simp only [toFormulaEinsum, einsumSpec]
    rw [foldl_freeNames, filter_not_contains_nil]
    simp only [List.map_map, Function.comp_def, List.nil_append]
  · decide

/-- The i-th entry of `looseIndices` is the i-th tensor filtered on
uncontracted names. -/
theorem looseIndices_getD (d : TensorDiagramCore) (i : Nat) (h : i < d.tensors.length) :
    (looseIndices d).getD i []
      = (d.tensors.getD i default).indices.filter
          (fun ix => !((d.contractions.map fun c => c.name).contains ix.name)) := by
  simp [looseIndices, List.getD_eq_getElem?_getD, List.getElem?_eq_getElem, h]

/-- C8 (amended): per tensor in order, looseIndices returns the
order-preserving subsequence of indices whose name is uncontracted; no
loose name is contracted; and, provided every contraction name occurs
among the index names (the documented caller-enforced invariant), the
union of loose and contracted names is the set of all index names. -/
theorem claim_C8 (d : TensorDiagramCore) :
    (looseIndices d).length = d.tensors.length
    ∧ (∀ i, i < d.tensors.length →
        ((looseIndices d).getD i []).Sublist (d.tensors.getD i default).indices
        ∧ ∀ ix, ix ∈ (looseIndices d).getD i []
            ↔ ix ∈ (d.tensors.getD i default).indices ∧ ix.name ∉ contractedNames d)
    ∧ (∀ nm, nm ∈ looseNames d → nm ∉ contractedNames d)
    ∧ ((∀ nm, nm ∈ contractedNames d → nm ∈ allIndexNames d) →
        ∀ nm, nm ∈ allIndexNames d ↔ nm ∈ looseNames d ∨ nm ∈ contractedNames d) := by
  refine ⟨by simp [looseIndices], fun i hi => ⟨?_, fun ix => ?_⟩, ?_, ?_⟩
  · rw [looseIndices_getD d i hi]
    exact List.filter_sublist _
  · rw [looseIndices_getD d i hi]
    simp [contractedNames, contains_eq_decide]
  · intro nm hnm
    simp only [looseNames, looseIndices, List.mem_map, List.mem_flatten] at hnm
    obtain ⟨ix, ⟨l, ⟨t, ht, rfl⟩, hixl⟩, hname⟩ := hnm
    rw [List.mem_filter] at hixl
    have h2 := hixl.2
    rw [← hname]
    simpa [contractedNames, contains_eq_decide] using h2
  · intro hinv nm
    constructor
    · intro hall
      by_cases hcn : nm ∈ contractedNames d
      · exact Or.inr hcn
      · left
        simp only [allIndexNames, List.mem_flatten, List.mem_map] at hall
        obtain ⟨l, ⟨t, ht, rfl⟩, hnml⟩ := hall
        obtain ⟨ix, hix, rfl⟩ := List.mem_map.mp hnml
        have hpred : (!((d.contractions.map fun c => c.name).contains ix.name)) = true := by
          simpa [contractedNames, contains_eq_decide] using hcn
        simp only [looseNames, looseIndices, List.mem_map, List.mem_flatten]
        exact ⟨ix, ⟨_, ⟨t, ht, rfl⟩, List.mem_filter.mpr ⟨hix, hpred⟩⟩, rfl⟩
    · intro h
      rcases h with h | h
      · simp only [looseNames, looseIndices, List.mem_map, List.mem_flatten] at h
        obtain ⟨ix, ⟨l, ⟨t, ht, rfl⟩, hixl⟩, hname⟩ := h
        rw [List.mem_filter] at hixl
        simp only [allIndexNames, List.mem_flatten]
        refine ⟨t.indices.map fun ix => ix.name, ?_, ?_⟩
        · exact List.mem_map.mpr ⟨t, ht, rfl⟩
        · exact List.mem_map.mpr ⟨ix, hixl.1, hname⟩
      · exact hinv nm h

/-- Witness for C8 at a concrete contracted diagram. -/
theorem claim_C8_w :
    (((looseIndices exGood).getD 0 []).Sublist ((exGood.tensors.getD 0 default).indices))
    ∧ ("i" ∈ allIndexNames exGood ↔ "i" ∈ looseNames exGood ∨ "i" ∈ contractedNames exGood) :=
  ⟨((claim_C8 exGood).2.1 0 (by decide)).1,
   (claim_C8 exGood).2.2.2 (by decide) "i"⟩

/-- Counterexample to C8 as stated: a contraction may name an index
present on no tensor, so the union of loose and contracted names can
strictly exceed the set of index names. -/
theorem claim_C8_cex :
    "zz" ∈ contractedNames exBadContr ∧ "zz" ∉ allIndexNames exBadContr := by
  refine ⟨by decide, by decide⟩

/-- `addContraction` with in-range positions stores both references. -/
theorem addContraction_inRange (d : TensorDiagramCore) (i j : Nat) (nm ps : String)
    (hi : i < d.tensors.length) (hj : j < d.tensors.length) :
    addContraction d (i : Int) (j : Int) nm ps
      = { d with contractions := d.contractions ++
          [{ source := some i, target := some j, name := nm, pos := ps }] } := by
  simp [addContraction, tensorRef, hi, hj]

/-- C3: with exactly one tensor carrying an index named `name`,
addSummation appends one dot tensor (shape dot, hidden label) placed
opposite the index side at the perpendicular offset `order`, carrying
one index named `name` on the opposite side, and records one
contraction between the tensor and the dot; an index position outside
left/right/up/down fails with the invalid-position error. -/
theorem claim_C3 (d : TensorDiagramCore) (name : String) (ti : Nat) (t : Tensor) (ind : Index)
    (hrel : relevantIdxs d name = [ti])
    (ht : d.tensors.getD ti default = t)
    (hind : (t.indices.filter (fun ix => ix.name == name)).head? = some ind) :
    (ind.pos = some "left" →
      addSummation d name none = .ok { d with
        tensors := d.tensors ++ [dotOne (t.x - 1) (t.y + (ind.order : Int)) name "right" 1],
        contractions := d.contractions ++ [cOne ti d.tensors.length name] })
    ∧ (ind.pos = some "right" →
      addSummation d name none = .ok { d with
        tensors := d.tensors ++ [dotOne (t.x + 1) (t.y + (ind.order : Int)) name "left" 1],
        contractions := d.contractions ++ [cOne ti d.tensors.length name] })
    ∧ (ind.pos = some "up" →
      addSummation d name none = .ok { d with
        tensors := d.tensors ++ [dotOne (t.x + (ind.order : Int)) (t.y - 1) name "down" 0],
        contractions := d.contractions ++ [cOne ti d.tensors.length name] })
    ∧ (ind.pos = some "down" →
      addSummation d name none = .ok { d with
        tensors := d.tensors ++ [dotOne (t.x + (ind.order : Int)) (t.y + 1) name "up" 0],
        contractions := d.contractions ++ [cOne ti d.tensors.length name] })
    ∧ (ind.pos ≠ some "left" → ind.pos ≠ some "right" → ind.pos ≠ some "up" →
        ind.pos ≠ some "down" →
      addSummation d name none = .error (.invalidIndexPosition ind.pos name, d)) := by
  have hti : ti < d.tensors.length := by
    have hmem : ti ∈ relevantIdxs d name := by rw [hrel]; exact List.mem_singleton_self ti
    exact (mem_relevantIdxs.mp hmem).1
  have hlt1 : ∀ X : Tensor, ti < ({ d with tensors := d.tensors ++ [X] } :
      TensorDiagramCore).tensors.length := by
    intro X
    simp only [List.length_append, List.length_cons, List.length_nil]
    omega
  have hlt2 : ∀ X : Tensor, d.tensors.length < ({ d with tensors := d.tensors ++ [X] } :
      TensorDiagramCore).tensors.length := by
    intro X
    simp only [List.length_append, List.length_cons, List.length_nil]
    omega
  have hcast : ∀ X : Tensor, ((({ d with tensors := d.tensors ++ [X] } :
      TensorDiagramCore).tensors.length : Int) - 1) = ((d.tensors.length : Nat) : Int) := by
    intro X
    simp only [List.length_append, List.length_cons, List.length_nil]
    push_cast
    ring
  refine ⟨?_, ?_, ?_, ?_, ?_⟩
  · intro hpos
    simp only [addSummation, hrel, ht, hind, hpos, if_pos]
    have hat : addTensorAt d "dot" ⟨t.x - 1, t.y + (ind.order : Int)⟩ [] [name] [] [] dotOpts
        = { d with tensors := d.tensors ++ [dotOne (t.x - 1) (t.y + (ind.order : Int)) name "right" 1] } := rfl
    rw [hat, hcast, addContraction_inRange _ ti d.tensors.length name "up" (hlt1 _) (hlt2 _)]
    rfl
  · intro hpos
    have hne : ind.pos ≠ some "left" := by rw [hpos]; decide
    simp only [addSummation, hrel, ht, hind]
    rw [if_neg hne, if_pos hpos]
    have hat : addTensorAt d "dot" ⟨t.x + 1, t.y + (ind.order : Int)⟩ [name] [] [] [] dotOpts
        = { d with tensors := d.tensors ++ [dotOne (t.x + 1) (t.y + (ind.order : Int)) name "left" 1] } := rfl
    rw [hat, hcast, addContraction_inRange _ ti d.tensors.length name "up" (hlt1 _) (hlt2 _)]
    rfl
  · intro hpos
    have hne1 : ind.pos ≠ some "left" := by rw [hpos]; decide
    have hne2 : ind.pos ≠ some "right" := by rw [hpos]; decide
    simp only [addSummation, hrel, ht, hind]
    rw [if_neg hne1, if_neg hne2, if_pos hpos]
    have hat : addTensorAt d "dot" ⟨t.x + (ind.order : Int), t.y - 1⟩ [] [] [] [name] dotOpts
        = { d with tensors := d.tensors ++ [dotOne (t.x + (ind.order : Int)) (t.y - 1) name "down" 0] } := rfl
    rw [hat, hcast, addContraction_inRange _ ti d.tensors.length name "up" (hlt1 _) (hlt2 _)]
    rfl
  · intro hpos
    have hne1 : ind.pos ≠ some "left" := by rw [hpos]; decide
    have hne2 : ind.pos ≠ some "right" := by rw [hpos]; decide
    have hne3 : ind.pos ≠ some "up" := by rw [hpos]; decide
    simp only [addSummation, hrel, ht, hind]
    rw [if_neg hne1, if_neg hne2, if_neg hne3, if_pos hpos]
    have hat : addTensorAt d "dot" ⟨t.x + (ind.order : Int), t.y + 1⟩ [] [] [name] [] dotOpts
        = { d with tensors := d.tensors ++ [dotOne (t.x + (ind.order : Int)) (t.y + 1) name "up" 0] } := rfl
    rw [hat, hcast, addContraction_inRange _ ti d.tensors.length name "up" (hlt1 _) (hlt2 _)]
    rfl
  · intro hne1 hne2 hne3 hne4
    simp only [addSummation, hrel, ht, hind]
    rw [if_neg hne1, if_neg hne2, if_neg hne3, if_neg hne4]

/-- Witness for C3 at the spec example: index i on side up, order 0. -/
theorem claim_C3_w :
    addSummation exA "i" none = .ok { exA with
      tensors := exA.tensors ++ [dotOne 0 (-1) "i" "down" 0],
      contractions := exA.contractions ++ [cOne 0 1 "i"] } :=
  (claim_C3 exA "i" 0 (mkT "A" 0 0 [mkIx "i" "up" 0]) (mkIx "i" "up" 0)
    (by decide) (by decide) (by decide)).2.2.1 (by decide)

theorem getD_set_of_ne {α : Type} [Inhabited α] (l : List α) (i j : Nat) (x : α)
    (h : i ≠ j) : (l.set i x).getD j default = l.getD j default := by
  simp [List.getD_eq_getElem?_getD, List.getElem?_set_ne h]

theorem getD_set_self {α : Type} [Inhabited α] (l : List α) (i : Nat) (x : α)
    (h : i < l.length) : (l.set i x).getD i default = x := by
  simp [List.getD_eq_getElem?_getD, List.getElem?_set_self, h]

theorem set_getD_self {α : Type} [Inhabited α] :
    ∀ (l : List α) (i : Nat), i < l.length → l.set i (l.getD i default) = l
  | [], i, h => by simp at h
  | a :: l, 0, _ => by simp
  | a :: l, i + 1, h => by
    simp only [List.set_cons_succ, List.getD_cons_succ, List.cons.injEq, true_and]
    exact set_getD_self l i (by simpa using h)

theorem getD_append_left {α : Type} [Inhabited α] (l l2 : List α) (j : Nat)
    (h : j < l.length) : (l ++ l2).getD j default = l.getD j default := by
  simp [List.getD_eq_getElem?_getD, List.getElem?_append_left h]

theorem getD_append_length {α : Type} [Inhabited α] (l : List α) (x : α) :
    (l ++ [x]).getD l.length default = x := by
  simp [List.getD_eq_getElem?_getD, List.getElem?_concat_length]

theorem addContraction_last (d : TensorDiagramCore) (i : Nat) (nm ps : String)
    (hi : i < d.tensors.length) (h0 : 0 < d.tensors.length) :
    addContraction d (i : Int) ((d.tensors.length : Int) - 1) nm ps
      = { d with contractions := d.contractions ++
          [{ source := some i, target := some (d.tensors.length - 1), name := nm, pos := ps }] } := by
  have c1 : 0 ≤ (i : Int) ∧ (i : Int) < (d.tensors.length : Int) := by omega
  have c2 : 0 ≤ (d.tensors.length : Int) - 1 ∧
      (d.tensors.length : Int) - 1 < (d.tensors.length : Int) := by omega
  simp only [addContraction, tensorRef, if_pos c1, if_pos c2]
  have e1 : ((i : Int)).toNat = i := by omega
  have e2 : ((d.tensors.length : Int) - 1).toNat = d.tensors.length - 1 := by omega
  rw [e1, e2]

theorem sumStep_eq (name : String) (dotIdx i ti : Nat) (s : TensorDiagramCore) (ix : Index)
    (hti : ti < dotIdx) (hlen : dotIdx + 1 = s.tensors.length)
    (hfind : (s.tensors.getD ti default).indices.find? (fun ind => ind.name == name)
      = some ix) :
    sumStep name dotIdx i ti s = .ok { s with
      tensors := (s.tensors.set dotIdx (pushDotIndex (s.tensors.getD dotIdx default)
          (name ++ toString i) (ix.pos.bind opposite))).set ti
          (renameTensor (s.tensors.getD ti default) name (name ++ toString i)),
      contractions := s.contractions ++ [cOne ti dotIdx (name ++ toString i)] } := by
  simp only [sumStep, hfind]
  rw [addContraction_last _ ti (name ++ toString i) "up"
    (by simp only [List.length_set]; omega) (by simp only [List.length_set]; omega)]
  simp only [List.length_set, ← hlen, Nat.add_sub_cancel]
  rfl

theorem renameAll_nil (ts : List Tensor) (name : String) (i : Nat) :
    renameAll ts name i [] = ts := rfl

theorem renameAll_length (name : String) :
    ∀ (rel : List Nat) (ts : List Tensor) (i : Nat),
      (renameAll ts name i rel).length = ts.length := by
  intro rel
  induction rel with
  | nil => intro ts i; rfl
  | cons tj rest ih =>
    intro ts i
    simp only [renameAll, ih, List.length_set]

theorem renameAll_set_comm (name : String) :
    ∀ (rel : List Nat) (ts : List Tensor) (i q : Nat) (X : Tensor),
      (∀ tj ∈ rel, tj ≠ q) →
      renameAll (ts.set q X) name i rel = (renameAll ts name i rel).set q X := by
  intro rel
  induction rel with
  | nil => intro ts i q X _; rfl
  | cons tj rest ih =>
    intro ts i q X hq
    have hne : tj ≠ q := hq tj (List.mem_cons_self tj rest)
    simp only [renameAll]
    rw [getD_set_of_ne ts q tj X (fun h => hne h.symm)]
    rw [List.set_comm _ _ _ hne.symm]
    exact ih (ts.set tj (renameTensor (ts.getD tj default) name (name ++ toString i)))
      (i + 1) q X (fun t ht => hq t (List.mem_cons_of_mem tj ht))

theorem renameAll_getD_of_notmem (name : String) :
    ∀ (rel : List Nat) (ts : List Tensor) (i j : Nat), j ∉ rel →
      (renameAll ts name i rel).getD j default = ts.getD j default := by
  intro rel
  induction rel with
  | nil => intro ts i j _; rfl
  | cons tj rest ih =>
    intro ts i j hj
    simp only [renameAll]
    rw [ih _ (i + 1) j (fun h => hj (List.mem_cons_of_mem tj h))]
    exact getD_set_of_ne ts tj j _ (fun h => hj (h ▸ List.mem_cons_self tj rest))

theorem renameAll_append_right (name : String) :
    ∀ (rel : List Nat) (ts : List Tensor) (x : Tensor) (i : Nat),
      (∀ tj ∈ rel, tj < ts.length) →
      renameAll (ts ++ [x]) name i rel = renameAll ts name i rel ++ [x] := by
  intro rel
  induction rel with
  | nil => intro ts x i _; rfl
  | cons tj rest ih =>
    intro ts x i hb
    have htj : tj < ts.length := hb tj (List.mem_cons_self tj rest)
    simp only [renameAll]
    rw [getD_append_left ts [x] tj htj, List.set_append_left _ _ htj]
    rw [ih _ x (i + 1) (by intro t ht; simpa using hb t (List.mem_cons_of_mem tj ht))]

theorem sumLoop_cons_ok (name : String) (dotIdx i ti : Nat) (rest : List Nat)
    (s s1 : TensorDiagramCore) (h : sumStep name dotIdx i ti s = .ok s1) :
    sumLoop name dotIdx (ti :: rest) i s = sumLoop name dotIdx rest (i + 1) s1 := by
  rw [sumLoop, h]

/-- Full characterization of the forEach loop of the final branch of
addSummation: positions listed in `rel` are renamed in order, the dot
accumulates the pushed indices, and one contraction per position is
recorded. -/
theorem sumLoop_spec (name : String) (dotIdx : Nat) :
    ∀ (rel : List Nat) (i : Nat) (s : TensorDiagramCore),
      rel.Nodup →
      (∀ tj ∈ rel, tj < dotIdx) →
      dotIdx + 1 = s.tensors.length →
      (∀ tj ∈ rel, hasIndexNamed name (s.tensors.getD tj default) = true) →
      sumLoop name dotIdx rel i s = .ok { s with
        tensors := (renameAll s.tensors name i rel).set dotIdx
          (withIndices (s.tensors.getD dotIdx default)
            ((s.tensors.getD dotIdx default).indices ++
              dotPushed name (s.tensors.getD dotIdx default).indices i
                (rel.map fun tj => oppOf (s.tensors.getD tj default) name))),
        contractions := s.contractions ++ newContrs name dotIdx i rel } := by
  intro rel
  induction rel with
  | nil =>
    intro i s _ _ hlen _
    simp only [sumLoop, renameAll_nil, dotPushed, newContrs, List.map_nil, List.append_nil]
    have h1 : withIndices (s.tensors.getD dotIdx default)
        (s.tensors.getD dotIdx default).indices = s.tensors.getD dotIdx default := rfl
    rw [h1, set_getD_self _ _ (by omega)]
  | cons ti rest ih =>
    intro i s hnd hb hlen hhas
    have hti : ti < dotIdx := hb ti (List.mem_cons_self ti rest)
    have htiS : ti < s.tensors.length := by omega
    have hdotS : dotIdx < s.tensors.length := by omega
    have hne : ti ≠ dotIdx := Nat.ne_of_lt hti
    have hrest_ne_ti : ∀ tj ∈ rest, tj ≠ ti := by
      intro tj htj h
      exact (List.nodup_cons.mp hnd).1 (h ▸ htj)
    have hrest_lt : ∀ tj ∈ rest, tj < dotIdx :=
      fun tj htj => hb tj (List.mem_cons_of_mem ti htj)
    have hhasti : hasIndexNamed name (s.tensors.getD ti default) = true :=
      hhas ti (List.mem_cons_self ti rest)
    obtain ⟨ix, hfind⟩ : ∃ ix, (s.tensors.getD ti default).indices.find?
        (fun ind => ind.name == name) = some ix := by
      have h1 : ((s.tensors.getD ti default).indices.find?
          (fun ind => ind.name == name)).isSome := by
        rw [List.find?_isSome]
        simpa [hasIndexNamed] using hhasti
      exact Option.isSome_iff_exists.mp h1
    rw [sumLoop_cons_ok name dotIdx i ti rest s _
      (sumStep_eq name dotIdx i ti s ix hti hlen hfind)]
    rw [ih (i + 1) _ (List.nodup_cons.mp hnd).2 hrest_lt
      (by simp only [List.length_set]; omega)
      (by
        intro tj htj
        have g1 := getD_set_of_ne
          (s.tensors.set dotIdx (pushDotIndex (s.tensors.getD dotIdx default)
            (name ++ toString i) (ix.pos.bind opposite)))
          ti tj (renameTensor (s.tensors.getD ti default) name (name ++ toString i))
          (fun h => (hrest_ne_ti tj htj) h.symm)
        have g2 := getD_set_of_ne s.tensors dotIdx tj
          (pushDotIndex (s.tensors.getD dotIdx default)
            (name ++ toString i) (ix.pos.bind opposite))
          (fun h => Nat.ne_of_lt (hrest_lt tj htj) h.symm)
        rw [g1, g2]
        exact hhas tj (List.mem_cons_of_mem ti htj))]
    simp only []
    have e1 : ((s.tensors.set dotIdx (pushDotIndex (s.tensors.getD dotIdx default)
          (name ++ toString i) (ix.pos.bind opposite))).set ti
          (renameTensor (s.tensors.getD ti default) name (name ++ toString i))).getD
          dotIdx default
        = pushDotIndex (s.tensors.getD dotIdx default) (name ++ toString i)
          (ix.pos.bind opposite) := by
      rw [getD_set_of_ne _ ti dotIdx _ hne, getD_set_self _ _ _ hdotS]
    have e2 : ∀ tj ∈ rest,
        ((s.tensors.set dotIdx (pushDotIndex (s.tensors.getD dotIdx default)
          (name ++ toString i) (ix.pos.bind opposite))).set ti
          (renameTensor (s.tensors.getD ti default) name (name ++ toString i))).getD
          tj default = s.tensors.getD tj default := by
      intro tj htj
      rw [getD_set_of_ne _ ti tj _ (fun h => hrest_ne_ti tj htj h.symm),
        getD_set_of_ne _ dotIdx tj _ (fun h => Nat.ne_of_lt (hrest_lt tj htj) h.symm)]
    have e3 : (rest.map fun tj =>
        oppOf (((s.tensors.set dotIdx (pushDotIndex (s.tensors.getD dotIdx default)
          (name ++ toString i) (ix.pos.bind opposite))).set ti
          (renameTensor (s.tensors.getD ti default) name (name ++ toString i))).getD
          tj default) name)
        = rest.map fun tj => oppOf (s.tensors.getD tj default) name :=
      List.map_congr_left fun tj htj => by rw [e2 tj htj]
    have e5 : renameAll ((s.tensors.set dotIdx (pushDotIndex (s.tensors.getD dotIdx default)
          (name ++ toString i) (ix.pos.bind opposite))).set ti
          (renameTensor (s.tensors.getD ti default) name (name ++ toString i)))
          name (i + 1) rest
        = (renameAll (s.tensors.set ti
            (renameTensor (s.tensors.getD ti default) name (name ++ toString i)))
            name (i + 1) rest).set dotIdx
          (pushDotIndex (s.tensors.getD dotIdx default) (name ++ toString i)
            (ix.pos.bind opposite)) := by
      rw [List.set_comm _ _ _ hne.symm]
      exact renameAll_set_comm name rest _ (i + 1) dotIdx _
        (fun tj htj => Nat.ne_of_lt (hrest_lt tj htj))
    rw [e1, e3, e5, List.set_set]
    simp only [renameAll, List.map_cons, newContrs, dotPushed]
    have e6 : oppOf (s.tensors.getD ti default) name = ix.pos.bind opposite := by
      simp only [oppOf, hfind]
    rw [e6]
    congr 1
    congr 1
    · congr 1
      exact congrArg (withIndices (s.tensors.getD dotIdx default)) (List.append_cons _ _ _).symm
    · exact (List.append_cons _ _ _).symm

/-- Full characterization of addSummation in the >= 3 relevant tensors
branch with an explicit position. -/
theorem addSummation_big_spec (d : TensorDiagramCore) (name : String) (rel : List Nat)
    (p : XY) (hrel : relevantIdxs d name = rel) (h3 : 3 ≤ rel.length) :
    addSummation d name (some p) = .ok { d with
      tensors := renameAll d.tensors name 0 rel ++
        [withIndices (dotBase p) (dotPushed name [] 0
          (rel.map fun tj => oppOf (d.tensors.getD tj default) name))],
      contractions := d.contractions ++ newContrs name d.tensors.length 0 rel } := by
  have hnd : rel.Nodup := hrel ▸ relevantIdxs_nodup d name
  have hmem : ∀ tj ∈ rel, tj < d.tensors.length ∧
      hasIndexNamed name (d.tensors.getD tj default) = true := by
    intro tj htj
    exact mem_relevantIdxs.mp (hrel ▸ htj)
  rcases rel with _ | ⟨t0, _ | ⟨t1, _ | ⟨t2, r⟩⟩⟩
  · simp at h3
  · simp at h3
  · simp at h3
  · simp only [addSummation, hrel]
    have hd1 : addTensorAt d "dot" p [] [] [] [] dotOpts
        = { d with tensors := d.tensors ++ [dotBase p] } := rfl
    rw [hd1]
    have hdix : ({ d with tensors := d.tensors ++ [dotBase p] } :
        TensorDiagramCore).tensors.length - 1 = d.tensors.length := by
      simp
    rw [hdix]
    rw [sumLoop_spec name d.tensors.length (t0 :: t1 :: t2 :: r) 0 _ hnd
      (fun tj htj => (hmem tj htj).1)
      (by simp)
      (by
        intro tj htj
        rw [getD_append_left d.tensors [dotBase p] tj (hmem tj htj).1]
        exact (hmem tj htj).2)]
    have g1 : (d.tensors ++ [dotBase p]).getD d.tensors.length default = dotBase p :=
      getD_append_length d.tensors (dotBase p)
    rw [g1]
    have g2 : ((t0 :: t1 :: t2 :: r).map fun tj =>
          oppOf ((d.tensors ++ [dotBase p]).getD tj default) name)
        = (t0 :: t1 :: t2 :: r).map fun tj => oppOf (d.tensors.getD tj default) name :=
      List.map_congr_left fun tj htj => by
        rw [getD_append_left d.tensors [dotBase p] tj (hmem tj htj).1]
    rw [g2]
    have g3 : renameAll (d.tensors ++ [dotBase p]) name 0 (t0 :: t1 :: t2 :: r)
        = renameAll d.tensors name 0 (t0 :: t1 :: t2 :: r) ++ [dotBase p] :=
      renameAll_append_right name _ d.tensors (dotBase p) 0
        (fun tj htj => (hmem tj htj).1)
    rw [g3]
    have g4 : (renameAll d.tensors name 0 (t0 :: t1 :: t2 :: r) ++ [dotBase p]).set
          d.tensors.length
          (withIndices (dotBase p) ((dotBase p).indices ++ dotPushed name
            (dotBase p).indices 0
            ((t0 :: t1 :: t2 :: r).map fun tj => oppOf (d.tensors.getD tj default) name)))
        = renameAll d.tensors name 0 (t0 :: t1 :: t2 :: r) ++
          [withIndices (dotBase p) (dotPushed name [] 0
            ((t0 :: t1 :: t2 :: r).map fun tj => oppOf (d.tensors.getD tj default) name))] := by
      rw [List.set_append_right _ _ (by rw [renameAll_length])]
      rw [renameAll_length]
      simp [dotBase]
    rw [g4]


theorem dotPushed_length (name : String) :
    ∀ (ps : List (Option String)) (base : List Index) (i : Nat),
      (dotPushed name base i ps).length = ps.length := by
  intro ps
  induction ps with
  | nil => intro base i; rfl
  | cons q qs ih =>
    intro base i
    simp only [dotPushed, List.length_cons, ih]

theorem getD_map_of_lt {α β : Type} [Inhabited α] [Inhabited β] (f : α → β)
    (l : List α) (k : Nat) (h : k < l.length) :
    (l.map f).getD k default = f (l.getD k default) := by
  simp [List.getD_eq_getElem?_getD, List.getElem?_map, List.getElem?_eq_getElem, h]

theorem newContrs_length (name : String) (dotIdx : Nat) :
    ∀ (rel : List Nat) (i : Nat), (newContrs name dotIdx i rel).length = rel.length := by
  intro rel
  induction rel with
  | nil => intro i; rfl
  | cons tj rest ih =>
    intro i
    simp only [newContrs, List.length_cons, ih]

theorem newContrs_getD (name : String) (dotIdx : Nat) :
    ∀ (rel : List Nat) (i k : Nat), k < rel.length →
      (newContrs name dotIdx i rel).getD k default
        = cOne (rel.getD k 0) dotIdx (name ++ toString (i + k)) := by
  intro rel
  induction rel with
  | nil => intro i k h; simp at h
  | cons tj rest ih =>
    intro i k hk
    match k with
    | 0 => simp [newContrs, cOne]
    | k + 1 =>
      simp only [newContrs, List.getD_cons_succ]
      rw [ih (i + 1) k (by simpa using hk)]
      have : i + 1 + k = i + (k + 1) := by omega
      rw [this]


theorem dotPushed_getD (name : String) :
    ∀ (ps : List (Option String)) (base : List Index) (i k : Nat), k < ps.length →
      (dotPushed name base i ps).getD k default
        = dotIx (name ++ toString (i + k)) (ps.getD k none)
            ((base ++ (dotPushed name base i ps).take k).filter
              (fun ind => ind.pos == ps.getD k none)).length := by
  intro ps
  induction ps with
  | nil => intro base i k h; simp at h
  | cons q qs ih =>
    intro base i k hk
    match k with
    | 0 => simp [dotPushed, dotIx]
    | k + 1 =>
      simp only [dotPushed, List.getD_cons_succ, List.take_succ_cons]
      rw [ih (base ++ [({ name := name ++ toString i, pos := q, order := (List.filter (fun ind => ind.pos == q) base).length, showLabel := false } : Index)]) (i + 1) k (by simpa using hk)]
      have h1 : i + 1 + k = i + (k + 1) := by omega
      rw [h1, ← List.append_cons]

theorem renameAll_getD_mem (name : String) :
    ∀ (rel : List Nat) (ts : List Tensor) (i k : Nat), rel.Nodup →
      (∀ tj ∈ rel, tj < ts.length) → k < rel.length →
      (renameAll ts name i rel).getD (rel.getD k 0) default
        = renameTensor (ts.getD (rel.getD k 0) default) name
            (name ++ toString (i + k)) := by
  intro rel
  induction rel with
  | nil => intro ts i k _ _ h; simp at h
  | cons tj rest ih =>
    intro ts i k hnd hb hk
    have htj : tj < ts.length := hb tj (List.mem_cons_self tj rest)
    match k with
    | 0 =>
      simp only [renameAll, List.getD_cons_zero]
      rw [renameAll_getD_of_notmem name rest _ (i + 1) tj (List.nodup_cons.mp hnd).1]
      rw [getD_set_self ts tj _ htj]
      have h0 : i + 0 = i := by omega
      rw [h0]
    | k + 1 =>
      simp only [renameAll, List.getD_cons_succ]
      have hmem : rest.getD k 0 ∈ rest := by
        rw [List.getD_eq_getElem?_getD, List.getElem?_eq_getElem (by simpa using hk)]
        exact List.getElem_mem _
      have hne : rest.getD k 0 ≠ tj := by
        intro h
        exact (List.nodup_cons.mp hnd).1 (h ▸ hmem)
      rw [ih _ (i + 1) k (List.nodup_cons.mp hnd).2
        (by intro t ht; simpa using hb t (List.mem_cons_of_mem tj ht)) (by simpa using hk)]
      rw [getD_set_of_ne ts tj (rest.getD k 0) _ (fun h => hne h.symm)]
      have h1 : i + 1 + k = i + (k + 1) := by omega
      rw [h1]

theorem renameFirst_eq_map (name nn : String) :
    ∀ l : List Index, (l.filter (fun ix => ix.name == name)).length ≤ 1 →
      renameFirst l name nn
        = l.map fun jx => if jx.name = name then { jx with name := nn } else jx := by
  intro l
  induction l with
  | nil => intro _; rfl
  | cons x xs ih =>
    intro h
    by_cases hx : x.name = name
    · have hxb : (x.name == name) = true := by simp [hx]
      have hfe : xs.filter (fun ix => ix.name == name) = [] := by
        rw [List.filter_cons, if_pos hxb] at h
        simp only [List.length_cons] at h
        exact List.length_eq_zero.mp (by omega)
      have hnomatch : ∀ jx ∈ xs, ¬(jx.name = name) := by
        intro jx hjx hc
        have : jx ∈ xs.filter (fun ix => ix.name == name) :=
          List.mem_filter.mpr ⟨hjx, by simp [hc]⟩
        rw [hfe] at this
        exact absurd this (List.not_mem_nil jx)
      simp only [renameFirst, hxb, if_true, List.map_cons, if_pos hx]
      have : xs.map (fun jx => if jx.name = name then { jx with name := nn } else jx)
          = xs := by
        rw [List.map_congr_left (fun jx hjx => if_neg (hnomatch jx hjx))]
        exact List.map_id xs
      rw [this]
    · have hxb : (x.name == name) = false := by simp [hx]
      have h2 : (xs.filter (fun ix => ix.name == name)).length ≤ 1 := by
        rw [List.filter_cons, if_neg (by simp [hx])] at h
        exact h
      simp only [renameFirst, hxb, List.map_cons, if_neg hx]
      rw [ih h2]
      simp

theorem renameFirst_no_match (name nn : String) (hnn : nn ≠ name) :
    ∀ l : List Index, (l.filter (fun ix => ix.name == name)).length ≤ 1 →
      ∀ ix ∈ renameFirst l name nn, ix.name ≠ name := by
  intro l
  induction l with
  | nil => intro _ ix hix; simp [renameFirst] at hix
  | cons x xs ih =>
    intro h ix hix
    by_cases hx : x.name = name
    · have hxb : (x.name == name) = true := by simp [hx]
      have hfe : xs.filter (fun ix => ix.name == name) = [] := by
        rw [List.filter_cons, if_pos hxb] at h
        simp only [List.length_cons] at h
        exact List.length_eq_zero.mp (by omega)
      simp only [renameFirst, hxb, if_true] at hix
      rcases List.mem_cons.mp hix with hxeq | hix2
      · rw [hxeq]
        exact hnn
      · intro hc
        have : ix ∈ xs.filter (fun jx => jx.name == name) :=
          List.mem_filter.mpr ⟨hix2, by simp [hc]⟩
        rw [hfe] at this
        exact absurd this (List.not_mem_nil ix)
    · have hxb : (x.name == name) = false := by simp [hx]
      have h2 : (xs.filter (fun jx => jx.name == name)).length ≤ 1 := by
        rw [List.filter_cons, if_neg (by simp [hx])] at h
        exact h
      simp only [renameFirst, hxb, Bool.false_eq_true, if_false] at hix
      rcases List.mem_cons.mp hix with hxeq | hix2
      · rw [hxeq]
        exact hx
      · exact ih h2 ix hix2

theorem renameAll_rectHeight (name : String) :
    ∀ (rel : List Nat) (ts : List Tensor) (i j : Nat),
      (∀ tj ∈ rel, tj < ts.length) →
      ((renameAll ts name i rel).getD j default).rectHeight
        = (ts.getD j default).rectHeight := by
  intro rel
  induction rel with
  | nil => intro ts i j _; rfl
  | cons tj rest ih =>
    intro ts i j hb
    have htj : tj < ts.length := hb tj (List.mem_cons_self tj rest)
    simp only [renameAll]
    rw [ih _ (i + 1) j (by intro t ht; simpa using hb t (List.mem_cons_of_mem tj ht))]
    by_cases hj : tj = j
    · subst hj
      rw [getD_set_self ts tj _ htj]
      rfl
    · rw [getD_set_of_ne ts tj j _ hj]

theorem toDigitsCore_length_ge (b : Nat) :
    ∀ (f n : Nat) (ds : List Char),
      ds.length + 1 ≤ (Nat.toDigitsCore b (f + 1) n ds).length := by
  intro f
  induction f with
  | zero =>
    intro n ds
    simp only [Nat.toDigitsCore]
    split
    · simp
    · simp
  | succ f ih =>
    intro n ds
    simp only [Nat.toDigitsCore]
    split
    · simp
    · calc ds.length + 1 ≤ (Nat.digitChar (n % b) :: ds).length := by simp
        _ ≤ (Nat.toDigitsCore b (f + 1) (n / b) (Nat.digitChar (n % b) :: ds)).length :=
          Nat.le_trans (by simp) (ih (n / b) (Nat.digitChar (n % b) :: ds))

theorem toString_nat_length_pos (k : Nat) : 0 < (toString k).length := by
  have h1 : toString k = (Nat.toDigits 10 k).asString := rfl
  have h2 : ((Nat.toDigits 10 k).asString).length = (Nat.toDigits 10 k).length := rfl
  rw [h1, h2]
  have := toDigitsCore_length_ge 10 k k []
  simp only [List.length_nil] at this
  exact Nat.lt_of_lt_of_le (by omega) this

theorem append_toString_ne (name : String) (k : Nat) : name ++ toString k ≠ name := by
  intro h
  have h1 := congrArg String.length h
  rw [String.length_append] at h1
  have := toString_nat_length_pos k
  omega

theorem hasIndexNamed_eq_false_iff (name : String) (t : Tensor) :
    hasIndexNamed name t = false ↔ ∀ ix ∈ t.indices, ix.name ≠ name := by
  rw [← Bool.not_eq_true, hasIndexNamed, List.any_eq_true]
  simp

theorem dotPushed_name_mem (name : String) :
    ∀ (ps : List (Option String)) (base : List Index) (i : Nat) (ix : Index),
      ix ∈ dotPushed name base i ps → ∃ k : Nat, ix.name = name ++ toString k := by
  intro ps
  induction ps with
  | nil => intro base i ix h; simp [dotPushed] at h
  | cons q qs ih =>
    intro base i ix h
    simp only [dotPushed] at h
    rcases List.mem_cons.mp h with hxeq | hmem
    · exact ⟨i, by rw [hxeq]⟩
    · exact ih _ (i + 1) ix hmem


theorem withIndices_indices (t : Tensor) (inds : List Index) :
    (withIndices t inds).indices = inds := rfl

theorem getD_map_opp (f : Nat → Option String) (l : List Nat) (k : Nat) (h : k < l.length) :
    (l.map f).getD k none = f (l.getD k 0) := by
  simp [List.getD_eq_getElem?_getD, List.getElem?_map, List.getElem?_eq_getElem, h]

/-- C1: with n >= 3 tensors each carrying exactly one index named
`name`, addSummation with an explicit position appends exactly one dot
tensor at that position, renames the matching index of the k-th
relevant tensor (in diagram order) to `name ++ k`, pushes onto the dot,
for each k, a hidden-label index named `name ++ k` on the side opposite
the original index with order counting the dot indices already on that
side, and records exactly n new Contractions, the k-th linking the k-th
relevant tensor to the dot under `name ++ k`. -/
theorem claim_C1 (d : TensorDiagramCore) (name : String) (rel : List Nat) (p : XY)
    (hrel : relevantIdxs d name = rel) (h3 : 3 ≤ rel.length)
    (hone : ∀ tj ∈ rel, ((d.tensors.getD tj default).indices.filter
      (fun ix => ix.name == name)).length = 1) :
    ∃ d2, addSummation d name (some p) = .ok d2
      ∧ d2.tensors.length = d.tensors.length + 1
      ∧ (∀ j, j < d.tensors.length → j ∉ rel →
          d2.tensors.getD j default = d.tensors.getD j default)
      ∧ (∀ k, k < rel.length →
          d2.tensors.getD (rel.getD k 0) default
            = renameMap (d.tensors.getD (rel.getD k 0) default) name (name ++ toString k))
      ∧ (d2.tensors.getD d.tensors.length default).shape = "dot"
      ∧ (d2.tensors.getD d.tensors.length default).x = p.x
      ∧ (d2.tensors.getD d.tensors.length default).y = p.y
      ∧ (d2.tensors.getD d.tensors.length default).showLabel = false
      ∧ (d2.tensors.getD d.tensors.length default).indices.length = rel.length
      ∧ (∀ k, k < rel.length →
          (d2.tensors.getD d.tensors.length default).indices.getD k default
            = dotIx (name ++ toString k)
                (oppOf (d.tensors.getD (rel.getD k 0) default) name)
                (((d2.tensors.getD d.tensors.length default).indices.take k).filter
                  (fun ind => ind.pos ==
                    oppOf (d.tensors.getD (rel.getD k 0) default) name)).length)
      ∧ d2.contractions = d.contractions ++ newContrs name d.tensors.length 0 rel
      ∧ (newContrs name d.tensors.length 0 rel).length = rel.length
      ∧ (∀ k, k < rel.length →
          (newContrs name d.tensors.length 0 rel).getD k default
            = cOne (rel.getD k 0) d.tensors.length (name ++ toString k)) := by
  have hnd : rel.Nodup := hrel ▸ relevantIdxs_nodup d name
  have hb : ∀ tj ∈ rel, tj < d.tensors.length :=
    fun tj htj => (mem_relevantIdxs.mp (hrel ▸ htj)).1
  have hrenlen : (renameAll d.tensors name 0 rel).length = d.tensors.length :=
    renameAll_length name rel d.tensors 0
  refine ⟨_, addSummation_big_spec d name rel p hrel h3, ?_, ?_, ?_, ?_, ?_, ?_, ?_, ?_, ?_,
    rfl, newContrs_length name d.tensors.length rel 0, ?_⟩
  · simp only [List.length_append, List.length_cons, List.length_nil, hrenlen]
  · intro j hj hjrel
    rw [getD_append_left _ _ j (by omega)]
    exact renameAll_getD_of_notmem name rel d.tensors 0 j hjrel
  · intro k hk
    have hmem : rel.getD k 0 ∈ rel := by
      rw [List.getD_eq_getElem?_getD, List.getElem?_eq_getElem hk]
      exact List.getElem_mem _
    rw [getD_append_left _ _ _ (by rw [hrenlen]; exact hb _ hmem)]
    rw [renameAll_getD_mem name rel d.tensors 0 k hnd hb hk]
    have h0 : (0 : Nat) + k = k := by omega
    rw [h0]
    rw [renameTensor, renameMap, withIndices]
    rw [renameFirst_eq_map name (name ++ toString k) _ (by rw [hone _ hmem])]
  · rw [show d.tensors.length = (renameAll d.tensors name 0 rel).length from hrenlen.symm,
      getD_append_length]
    rfl
  · rw [show d.tensors.length = (renameAll d.tensors name 0 rel).length from hrenlen.symm,
      getD_append_length]
    rfl
  · rw [show d.tensors.length = (renameAll d.tensors name 0 rel).length from hrenlen.symm,
      getD_append_length]
    rfl
  · rw [show d.tensors.length = (renameAll d.tensors name 0 rel).length from hrenlen.symm,
      getD_append_length]
    rfl
  · rw [show d.tensors.length = (renameAll d.tensors name 0 rel).length from hrenlen.symm,
      getD_append_length]
    rw [withIndices_indices, dotPushed_length, List.length_map]
  · intro k hk
    rw [show d.tensors.length = (renameAll d.tensors name 0 rel).length from hrenlen.symm,
      getD_append_length]
    rw [withIndices_indices]
    rw [dotPushed_getD name _ [] 0 k (by rw [List.length_map]; exact hk)]
    have h0 : (0 : Nat) + k = k := by omega
    rw [h0]
    rw [getD_map_opp _ rel k hk]
    simp only [List.nil_append]
  · intro k hk
    rw [newContrs_getD name d.tensors.length rel 0 k hk]
    have h0 : (0 : Nat) + k = k := by omega
    rw [h0]

/-- C9: rectHeight is max(right-side count, left-side count) at
creation time and is never recomputed: after the >= 3 branch of
addSummation pushes its indices onto the dot tensor, the dot keeps
rectHeight 0, and every pre-existing tensor keeps its rectHeight. -/
theorem claim_C9 (d : TensorDiagramCore) (name : String) (rel : List Nat) (p : XY)
    (hrel : relevantIdxs d name = rel) (h3 : 3 ≤ rel.length) :
    (∀ (x y : Int) (nm : String) (inds : List Index) (shape : String) (sl : Bool)
        (lp : String) (sz : Nat),
      (createTensor x y nm inds shape sl lp sz).rectHeight
        = max (inds.filter fun ix => ix.pos == some "right").length
            (inds.filter fun ix => ix.pos == some "left").length)
    ∧ ∃ d2, addSummation d name (some p) = .ok d2
        ∧ (d2.tensors.getD d.tensors.length default).indices.length = rel.length
        ∧ (d2.tensors.getD d.tensors.length default).rectHeight = 0
        ∧ (∀ j, j < d.tensors.length →
            (d2.tensors.getD j default).rectHeight = (d.tensors.getD j default).rectHeight) := by
  have hb : ∀ tj ∈ rel, tj < d.tensors.length :=
    fun tj htj => (mem_relevantIdxs.mp (hrel ▸ htj)).1
  have hrenlen : (renameAll d.tensors name 0 rel).length = d.tensors.length :=
    renameAll_length name rel d.tensors 0
  refine ⟨fun x y nm inds shape sl lp sz => rfl,
    _, addSummation_big_spec d name rel p hrel h3, ?_, ?_, ?_⟩
  · rw [show d.tensors.length = (renameAll d.tensors name 0 rel).length from hrenlen.symm,
      getD_append_length]
    rw [withIndices_indices, dotPushed_length, List.length_map]
  · rw [show d.tensors.length = (renameAll d.tensors name 0 rel).length from hrenlen.symm,
      getD_append_length]
    rfl
  · intro j hj
    rw [getD_append_left _ _ j (by omega)]
    exact renameAll_rectHeight name rel d.tensors 0 j hb

/-- Summation over a name absent from every tensor throws before any
mutation. -/
theorem addSummation_noMatch (d : TensorDiagramCore) (nm : String) (p : Option XY)
    (h : ∀ t ∈ d.tensors, hasIndexNamed nm t = false) :
    addSummation d nm p = .error (.noMatchingIndex nm, d) := by
  have hrel : relevantIdxs d nm = [] := by
    simp only [relevantIdxs]
    rw [List.filter_eq_nil_iff]
    intro i hi
    rw [List.mem_range] at hi
    intro hc
    rw [h _ (getD_mem_of_lt hi)] at hc
    exact absurd hc (by decide)
  simp [addSummation, hrel]

/-- After the >= 3 branch, no tensor of the result carries an index
named exactly `name`. -/
theorem big_result_no_index (d : TensorDiagramCore) (name : String) (rel : List Nat) (p : XY)
    (hrel : relevantIdxs d name = rel)
    (hone : ∀ tj ∈ rel, ((d.tensors.getD tj default).indices.filter
      (fun ix => ix.name == name)).length = 1) :
    ∀ t ∈ renameAll d.tensors name 0 rel ++
        [withIndices (dotBase p) (dotPushed name [] 0
          (rel.map fun tj => oppOf (d.tensors.getD tj default) name))],
      hasIndexNamed name t = false := by
  have hnd : rel.Nodup := hrel ▸ relevantIdxs_nodup d name
  have hb : ∀ tj ∈ rel, tj < d.tensors.length :=
    fun tj htj => (mem_relevantIdxs.mp (hrel ▸ htj)).1
  intro t ht
  rcases List.mem_append.mp ht with hmem | hdot
  · obtain ⟨j, hj, hget⟩ := List.mem_iff_getElem.mp hmem
    have hjlen : j < d.tensors.length := by
      rw [← renameAll_length name rel d.tensors 0]
      exact hj
    have hgetD : (renameAll d.tensors name 0 rel).getD j default = t := by
      simp only [List.getD_eq_getElem?_getD, List.getElem?_eq_getElem hj, Option.getD_some]
      exact hget
    by_cases hjrel : j ∈ rel
    · obtain ⟨k, hk, hrelk⟩ := List.mem_iff_getElem.mp hjrel
      have hrelD : rel.getD k 0 = j := by
        simp only [List.getD_eq_getElem?_getD, List.getElem?_eq_getElem hk, Option.getD_some]
        exact hrelk
      have hval := renameAll_getD_mem name rel d.tensors 0 k hnd hb hk
      rw [hrelD] at hval
      rw [hgetD] at hval
      rw [hval, hasIndexNamed_eq_false_iff]
      intro ix hix
      exact renameFirst_no_match name (name ++ toString (0 + k))
        (append_toString_ne name _) _ (le_of_eq (hone j hjrel)) ix hix
    · rw [← hgetD, renameAll_getD_of_notmem name rel d.tensors 0 j hjrel]
      by_contra hc
      have hc2 : hasIndexNamed name (d.tensors.getD j default) = true :=
        Bool.not_eq_false _ |>.mp hc
      exact hjrel (hrel ▸ mem_relevantIdxs.mpr ⟨hjlen, hc2⟩)
  · have hteq : t = withIndices (dotBase p) (dotPushed name [] 0
        (rel.map fun tj => oppOf (d.tensors.getD tj default) name)) :=
      List.mem_singleton.mp hdot
    rw [hteq, hasIndexNamed_eq_false_iff]
    intro ix hix
    obtain ⟨k, hkname⟩ := dotPushed_name_mem name _ [] 0 ix hix
    rw [hkname]
    exact append_toString_ne name k

/-- C10: after a successful >= 3-tensor addSummation over `name`, no
tensor of the result, the dot included, carries an index named exactly
`name`, so an immediately following addSummation over `name` fails with
the no-matching-index error. -/
theorem claim_C10 (d : TensorDiagramCore) (name : String) (rel : List Nat) (p : XY)
    (hrel : relevantIdxs d name = rel) (h3 : 3 ≤ rel.length)
    (hone : ∀ tj ∈ rel, ((d.tensors.getD tj default).indices.filter
      (fun ix => ix.name == name)).length = 1) :
    ∃ d2, addSummation d name (some p) = .ok d2
      ∧ (∀ t ∈ d2.tensors, hasIndexNamed name t = false)
      ∧ ∀ p2, addSummation d2 name p2 = .error (.noMatchingIndex name, d2) := by
  refine ⟨_, addSummation_big_spec d name rel p hrel h3, ?_, ?_⟩
  · intro t ht
    exact big_result_no_index d name rel p hrel hone t ht
  · intro p2
    apply addSummation_noMatch
    intro t ht
    exact big_result_no_index d name rel p hrel hone t ht

/-- Witness for C1 at a concrete three-tensor diagram sharing index k. -/
theorem claim_C1_w : ∃ d2, addSummation ex3 "k" (some ⟨1, 1⟩) = .ok d2
      ∧ d2.tensors.length = ex3.tensors.length + 1
      ∧ (∀ j, j < ex3.tensors.length → j ∉ [0, 1, 2] →
          d2.tensors.getD j default = ex3.tensors.getD j default)
      ∧ (∀ k, k < [0, 1, 2].length →
          d2.tensors.getD ([0, 1, 2].getD k 0) default
            = renameMap (ex3.tensors.getD ([0, 1, 2].getD k 0) default) "k" ("k" ++ toString k))
      ∧ (d2.tensors.getD ex3.tensors.length default).shape = "dot"
      ∧ (d2.tensors.getD ex3.tensors.length default).x = (⟨1, 1⟩ : XY).x
      ∧ (d2.tensors.getD ex3.tensors.length default).y = (⟨1, 1⟩ : XY).y
      ∧ (d2.tensors.getD ex3.tensors.length default).showLabel = false
      ∧ (d2.tensors.getD ex3.tensors.length default).indices.length = [0, 1, 2].length
      ∧ (∀ k, k < [0, 1, 2].length →
          (d2.tensors.getD ex3.tensors.length default).indices.getD k default
            = dotIx ("k" ++ toString k)
                (oppOf (ex3.tensors.getD ([0, 1, 2].getD k 0) default) "k")
                (((d2.tensors.getD ex3.tensors.length default).indices.take k).filter
                  (fun ind => ind.pos ==
                    oppOf (ex3.tensors.getD ([0, 1, 2].getD k 0) default) "k")).length)
      ∧ d2.contractions = ex3.contractions ++ newContrs "k" ex3.tensors.length 0 [0, 1, 2]
      ∧ (newContrs "k" ex3.tensors.length 0 [0, 1, 2]).length = [0, 1, 2].length
      ∧ (∀ k, k < [0, 1, 2].length →
          (newContrs "k" ex3.tensors.length 0 [0, 1, 2]).getD k default
            = cOne ([0, 1, 2].getD k 0) ex3.tensors.length ("k" ++ toString k)) :=
  claim_C1 ex3 "k" [0, 1, 2] ⟨1, 1⟩ (by decide) (by decide) (by decide)

/-- Witness for C9: the createTensor formula at a concrete index list,
and the stale dot rectHeight at the concrete three-tensor diagram. -/
theorem claim_C9_w :
    ((createTensor 0 0 "T" [mkIx "a" "right" 0] "circle" true "up" 20).rectHeight
      = max ([mkIx "a" "right" 0].filter fun ix => ix.pos == some "right").length
          ([mkIx "a" "right" 0].filter fun ix => ix.pos == some "left").length)
    ∧ ∃ d2, addSummation ex3 "k" (some ⟨1, 1⟩) = .ok d2
        ∧ (d2.tensors.getD ex3.tensors.length default).indices.length = [0, 1, 2].length
        ∧ (d2.tensors.getD ex3.tensors.length default).rectHeight = 0
        ∧ (∀ j, j < ex3.tensors.length →
            (d2.tensors.getD j default).rectHeight
              = (ex3.tensors.getD j default).rectHeight) :=
  ⟨(claim_C9 ex3 "k" [0, 1, 2] ⟨1, 1⟩ (by decide) (by decide)).1
      0 0 "T" [mkIx "a" "right" 0] "circle" true "up" 20,
   (claim_C9 ex3 "k" [0, 1, 2] ⟨1, 1⟩ (by decide) (by decide)).2⟩

/-- Witness for C10 at the concrete three-tensor diagram. -/
theorem claim_C10_w : ∃ d2, addSummation ex3 "k" (some ⟨1, 1⟩) = .ok d2
      ∧ (∀ t ∈ d2.tensors, hasIndexNamed "k" t = false)
      ∧ ∀ p2, addSummation d2 "k" p2 = .error (.noMatchingIndex "k", d2) :=
  claim_C10 ex3 "k" [0, 1, 2] ⟨1, 1⟩ (by decide) (by decide) (by decide)
